import Mathlib

/-!
Shallow embedding of the core analysis routines of
`live_demos/keno_demo/keno_analyzer_v5.py` (class `TimeBasedKenoAnalyzerV5`),
together with proofs of the behavioural properties stated in the
specification of this repository.

Modelling conventions:

* Python floats are modelled by exact rationals (`ℚ`); all the float
  arithmetic performed by the analyzer is short chains of `+ * / min` on
  small ratios, where exact rational arithmetic agrees with the intent of
  the source.
* A `collections.Counter` populated by repeated `c[k] += 1` is modelled by an
  insertion-ordered association list (`List (α × ℕ)`): an existing key is
  incremented in place, a new key is appended at the end.  This matches
  CPython dict semantics, where iteration order is key-insertion order.
* `Counter.most_common(n)` and Python's `sorted(..., key=..., reverse=True)`
  are stable sorts by descending key; they are modelled with
  `List.insertionSort` and the corresponding total, transitive relation,
  which is stable in exactly the same sense (ties keep list order).
* Machine integers are `ℕ`/`ℤ`; none of the modelled quantities can
  overflow in Python, which has arbitrary-precision integers.
-/

namespace Keno

/-- One `counter[k] += 1` step on an insertion-ordered counter: increment the
first entry carrying key `k`, or append `(k, 1)` when the key is absent. -/
def bump {α : Type} [DecidableEq α] (k : α) : List (α × ℕ) → List (α × ℕ)
  | [] => [(k, 1)]
  | (a, n) :: t => if a = k then (a, n + 1) :: t else (a, n) :: bump k t

/-- `collections.Counter(xs)`: fold `bump` over the stream of elements. -/
def counterOf {α : Type} [DecidableEq α] (xs : List α) : List (α × ℕ) :=
  xs.foldl (fun c x => bump x c) []

/-- Descending-count comparison on counter items, the sort key used by
`Counter.most_common` and by `sorted(..., key=lambda x: x[1], reverse=True)`. -/
def countGe {α : Type} (a b : α × ℕ) : Prop := b.2 ≤ a.2

instance {α : Type} : DecidableRel (countGe (α := α)) := fun a b =>
  inferInstanceAs (Decidable (b.2 ≤ a.2))

instance {α : Type} : IsTotal (α × ℕ) countGe := ⟨fun a b => le_total b.2 a.2⟩

instance {α : Type} : IsTrans (α × ℕ) countGe := ⟨fun _ _ _ h1 h2 => le_trans h2 h1⟩

/-- `Counter.most_common(n)`: all items stably sorted by descending count,
then the first `n` of them. -/
def mostCommon {α : Type} (c : List (α × ℕ)) (n : ℕ) : List (α × ℕ) :=
  (c.insertionSort countGe).take n

/-- `_apply_timing_correction` (keno_analyzer_v5.py:85-106).  The source
formats the result as a zero-padded `HH:MM` string; this embedding returns
the `(corrected_hour, corrected_minute)` components that are formatted. -/
def timing_correction (hour minute offset : ℤ) : ℤ × ℤ :=
  let corrected_minute := minute + offset
  if corrected_minute < 0 then
    let h := hour - 1
    (if h < 0 then 23 else h, 60 + corrected_minute)
  else if 60 ≤ corrected_minute then
    let h := hour + 1
    (if 24 ≤ h then 0 else h, corrected_minute - 60)
  else
    (hour, corrected_minute)

/-- Python `f-string` `%02d` formatting of a two-digit clock component
(every component produced by the window assigner lies in `[0, 99]`). -/
def pad2 (n : ℕ) : String := ⟨[Nat.digitChar (n / 10), Nat.digitChar (n % 10)]⟩

/-- `_create_v5_time_window` (keno_analyzer_v5.py:108-125). -/
def create_v5_time_window (hour minute : ℕ) : String :=
  let window_start_minute := minute / 5 * 5
  let window_end_minute := window_start_minute + 4
  if 60 ≤ window_end_minute then
    let end_hour := if hour < 23 then hour + 1 else 0
    pad2 hour ++ ":" ++ pad2 window_start_minute ++ "-" ++
      pad2 end_hour ++ ":" ++ pad2 (window_end_minute - 60)
  else
    pad2 hour ++ ":" ++ pad2 window_start_minute ++ "-" ++
      pad2 hour ++ ":" ++ pad2 window_end_minute

/-- `itertools.combinations(l, 2)`, in enumeration order. -/
def combinations2 {α : Type} : List α → List (List α)
  | [] => []
  | x :: t => t.map (fun y => [x, y]) ++ combinations2 t

/-- `itertools.combinations(l, 3)`, in enumeration order. -/
def combinations3 {α : Type} : List α → List (List α)
  | [] => []
  | x :: t => (combinations2 t).map (fun p => x :: p) ++ combinations3 t

/-- `tuple(sorted(c))`: normalize a combination by ascending sort. -/
def sortAsc (l : List ℕ) : List ℕ := l.insertionSort (· ≤ ·)

/-- The per-draw stream of normalized combinations that
`_analyze_v5_combinations` feeds into its counter: all sorted 2-subsets,
then (for draws with at least 3 numbers) all sorted 3-subsets. -/
def drawCombos (draw : List ℕ) : List (List ℕ) :=
  (combinations2 draw).map sortAsc ++
    (if 3 ≤ draw.length then (combinations3 draw).map sortAsc else [])

/-- Descending-frequency comparison on combination records
`(numbers, occurrences, percentage)`, the key of the final sort in
`_analyze_v5_combinations`. -/
def freqGe (a b : List ℕ × ℕ × ℚ) : Prop := b.2.1 ≤ a.2.1

instance : DecidableRel freqGe := fun a b =>
  inferInstanceAs (Decidable (b.2.1 ≤ a.2.1))

instance : IsTotal (List ℕ × ℕ × ℚ) freqGe := ⟨fun a b => le_total b.2.1 a.2.1⟩

instance : IsTrans (List ℕ × ℕ × ℚ) freqGe := ⟨fun _ _ _ h1 h2 => le_trans h2 h1⟩

/-- `_analyze_v5_combinations` (keno_analyzer_v5.py:210-238).  Records are
`(numbers, frequency, percentage)`. -/
def analyze_v5_combinations (draws_list : List (List ℕ)) : List (List ℕ × ℕ × ℚ) :=
  if draws_list.length < 3 then [] else
    let combination_counter := counterOf (draws_list.flatMap drawCombos)
    let frequent_combos :=
      (combination_counter.filter (fun p => 2 ≤ p.2)).map
        (fun p => (p.1, p.2, ((p.2 : ℚ) / draws_list.length) * 100))
    (frequent_combos.insertionSort freqGe).take 10

/-- `_calculate_v5_consistency` (keno_analyzer_v5.py:190-208).  The source
takes the draw list and the number-frequency counter separately; callers pass
`counterOf` of the flattened draws. -/
def calculate_v5_consistency (draws_list : List (List ℕ))
    (number_frequency : List (ℕ × ℕ)) : ℚ :=
  if draws_list = [] then 0 else
    let total_draws : ℕ := draws_list.length
    let total_numbers : ℕ := (draws_list.map List.length).sum
    let top_appearances : ℕ := ((mostCommon number_frequency 10).map (fun p => p.2)).sum
    let consistency : ℚ :=
      if 0 < total_numbers then (top_appearances : ℚ) / total_numbers * 100 else 0
    let frequency_bonus : ℚ := min ((total_draws : ℚ) / 20) 5
    min (consistency + frequency_bonus) 100

/-- `_calculate_window_consistency_v5` (keno_analyzer_v5.py:314-333); this
variant builds its own counter from the draws. -/
def calculate_window_consistency_v5 (draws_list : List (List ℕ)) : ℚ :=
  if draws_list = [] then 0 else
    let number_counts : List (ℕ × ℕ) := counterOf draws_list.flatten
    let total_draws : ℕ := draws_list.length
    let very_consistent :=
      (number_counts.filter (fun p => (total_draws : ℚ) * 0.4 ≤ (p.2 : ℚ))).length
    let somewhat_consistent :=
      (number_counts.filter (fun p => (total_draws : ℚ) * 0.25 ≤ (p.2 : ℚ))).length
    let consistency_score : ℚ :=
      if number_counts = [] then 0
      else ((very_consistent * 2 + somewhat_consistent : ℕ) : ℚ) / number_counts.length * 100
    min consistency_score 100

/-- `_find_v5_persistent_numbers` (keno_analyzer_v5.py:335-363): the `elif`
chain of the source is rendered as three filters with the accumulated
negations, the tier lists are concatenated and the result is stably sorted by
raw count descending before the keys are extracted. -/
def find_v5_persistent_numbers (draws_list : List (List ℕ))
    (frequency_counter : List (ℕ × ℕ)) : List ℕ :=
  if draws_list = [] then [] else
    let total_draws : ℕ := draws_list.length
    let very_high := frequency_counter.filter
      (fun p => (0.4 : ℚ) ≤ (p.2 : ℚ) / total_draws)
    let high := frequency_counter.filter
      (fun p => ¬ ((0.4 : ℚ) ≤ (p.2 : ℚ) / total_draws) ∧
        (0.25 : ℚ) ≤ (p.2 : ℚ) / total_draws)
    let moderate := frequency_counter.filter
      (fun p => ¬ ((0.4 : ℚ) ≤ (p.2 : ℚ) / total_draws) ∧
        ¬ ((0.25 : ℚ) ≤ (p.2 : ℚ) / total_draws) ∧
        (0.15 : ℚ) ≤ (p.2 : ℚ) / total_draws)
    ((very_high ++ high ++ moderate).insertionSort countGe).map Prod.fst

/-- The `hot_numbers` entry of a time pattern (keno_analyzer_v5.py:175):
the keys of `number_frequency.most_common(MAX_RECOMMENDATIONS)` for the
flattened draws of the slot, with `MAX_RECOMMENDATIONS = 15`. -/
def hot_numbers (draws_list : List (List ℕ)) : List ℕ :=
  (mostCommon (counterOf draws_list.flatten) 15).map Prod.fst

/-- The `top_numbers` computed inside `_calculate_v5_consistency`
(keno_analyzer_v5.py:199): keys of `number_frequency.most_common(10)`. -/
def top_numbers (draws_list : List (List ℕ)) : List ℕ :=
  (mostCommon (counterOf draws_list.flatten) 10).map Prod.fst

/-- The fields of a `time_patterns` entry that are consumed by
`_calculate_v5_confidence` and `generate_v5_recommendations`. -/
structure PatternData where
  total_draws : ℕ
  corrected_time : String
  consistency_score : ℚ
  frequent_combinations : List (List ℕ × ℕ × ℚ)
  hot_numbers : List ℕ

/-- `_calculate_v5_confidence` (keno_analyzer_v5.py:506-536), with the
`V5_CONFIG` confidence factors inlined (`BASE_CONFIDENCE = 50`,
`DRAW_MULTIPLIER = 1.5`, `CONSISTENCY_MULTIPLIER = 0.4`,
`COMBINATION_MULTIPLIER = 2.0`, `MAX_CONFIDENCE = 95`); `optimal_times` is
the ranked key list of `self.optimal_times`. -/
def calculate_v5_confidence (optimal_times : List String) (p : PatternData)
    (time_key : String) : ℚ :=
  let base : ℚ := 50
  let draw_boost : ℚ := min ((p.total_draws : ℚ) * 1.5) 25
  let consistency_boost : ℚ := p.consistency_score * 0.4
  let combo_boost : ℚ := (p.frequent_combinations.length : ℚ) * 2.0
  let timing_boost : ℚ := if p.corrected_time ≠ time_key then 5 else 0
  let optimal_boost : ℚ := if time_key ∈ optimal_times.take 5 then 10 else 0
  min (base + draw_boost + consistency_boost + combo_boost +
    timing_boost + optimal_boost) 95

/-- `generate_v5_recommendations` (keno_analyzer_v5.py:437-489), restricted
to the fields relevant for the queried behaviour: for each analysed time key
the produced entry carries the confidence, the corrected time and the first
15 hot numbers.  A requested `target_time` is analysed only when it is a key
of `time_patterns`; otherwise the list of times to analyse is empty. -/
def generate_v5_recommendations (time_patterns : List (String × PatternData))
    (optimal_times : List String) (target_time : Option String) :
    List (String × (ℚ × String × List ℕ)) :=
  let times_to_analyze :=
    match target_time with
    | some t => if t ∈ time_patterns.map Prod.fst then [t] else []
    | none => optimal_times.take 5
  times_to_analyze.filterMap (fun tk =>
    match time_patterns.find? (fun q => q.1 = tk) with
    | some q => some (tk, (calculate_v5_confidence optimal_times q.2 tk,
        q.2.corrected_time, q.2.hot_numbers.take 15))
    | none => none)

/-- Boolean check that consecutive elements of a list are related by `f`
(used to state ordering counterexamples executably). -/
def chainB {α : Type} (f : α → α → Bool) : List α → Bool
  | [] => true
  | [_] => true
  | a :: b :: t => f a b && chainB f (b :: t)

/-- Strict lexicographic comparison of number tuples, as Python compares
tuples of integers. -/
def lexLtB : List ℕ → List ℕ → Bool
  | [], [] => false
  | [], _ :: _ => true
  | _ :: _, [] => false
  | a :: as, b :: bs => if a < b then true else if b < a then false else lexLtB as bs

/-! ### C1: totality of the timing correction -/

/-- C1 counterexample: the claim quantifies over every integer offset,
including offsets of absolute value 60 or more.  At hour 0, minute 0 and
offset −65 the source computes the pair (23, −5); its minute part is
negative, so the formatted string `23:-5` is not a valid zero-padded `HH:MM`
time with minute in `[0, 59]`. -/
theorem C1_counterexample :
    timing_correction 0 0 (-65) = (23, -5) ∧ (timing_correction 0 0 (-65)).2 < 0 := by
  constructor <;> decide

/-- C1 (amended): for every hour in `[0,23]`, minute in `[0,59]` and every
integer offset with `|offset| ≤ 60` (which covers the configured offset −5),
`_apply_timing_correction` produces a corrected hour in `[0,23]` and a
corrected minute in `[0,59]`, i.e. a valid zero-padded 24-hour `HH:MM`. -/
theorem C1_timing_correction_valid (hour minute offset : ℤ)
    (hh0 : 0 ≤ hour) (hh : hour ≤ 23) (hm0 : 0 ≤ minute) (hm : minute ≤ 59)
    (ho0 : -60 ≤ offset) (ho1 : offset ≤ 60) :
    0 ≤ (timing_correction hour minute offset).1 ∧
    (timing_correction hour minute offset).1 ≤ 23 ∧
    0 ≤ (timing_correction hour minute offset).2 ∧
    (timing_correction hour minute offset).2 ≤ 59 := by
  simp only [timing_correction]
  split_ifs <;> simp_all <;> omega

/-- Witness for C1: the spec example, offset −5 applied to 08:03, giving
07:58 with all hypotheses discharged at concrete values. -/
theorem C1_timing_correction_valid_witness :
    (0 ≤ (8 : ℤ) ∧ (8 : ℤ) ≤ 23 ∧ 0 ≤ (3 : ℤ) ∧ (3 : ℤ) ≤ 59 ∧
      -60 ≤ (-5 : ℤ) ∧ (-5 : ℤ) ≤ 60) ∧
    (0 ≤ (timing_correction 8 3 (-5)).1 ∧ (timing_correction 8 3 (-5)).1 ≤ 23 ∧
      0 ≤ (timing_correction 8 3 (-5)).2 ∧ (timing_correction 8 3 (-5)).2 ≤ 59) :=
  ⟨by decide, C1_timing_correction_valid 8 3 (-5) (by decide) (by decide)
    (by decide) (by decide) (by decide) (by decide)⟩

/-! ### C10: groups with fewer than 3 draws produce no combinations -/

/-- C10: `_analyze_v5_combinations` returns the empty list for every group
with fewer than 3 draws, regardless of how often any 2-number subset occurs
in the group. -/
theorem C10_combinations_short_group (draws_list : List (List ℕ))
    (h : draws_list.length < 3) : analyze_v5_combinations draws_list = [] := by
  unfold analyze_v5_combinations
  rw [if_pos h]

/-- Witness for C10: the group `[[1,2,3],[1,2,4]]` has only 2 draws, yet the
pair `(1,2)` occurs twice in it (so it meets the at-least-2-occurrences
retention rule); the analysis still returns the empty list. -/
theorem C10_combinations_short_group_witness :
    (([[1, 2, 3], [1, 2, 4]] : List (List ℕ)).length < 3 ∧
      ([1, 2], 2) ∈ counterOf (([[1, 2, 3], [1, 2, 4]] : List (List ℕ)).flatMap drawCombos)) ∧
    analyze_v5_combinations [[1, 2, 3], [1, 2, 4]] = [] :=
  ⟨⟨by decide, by decide⟩, C10_combinations_short_group _ (by decide)⟩

/-! ### C4: queries for an absent time key -/

/-- C4 counterexample: with a single summarized slot `10:00`, querying
`generate_v5_recommendations` for the absent key `11:00` silently returns
the empty mapping — no error is signalled and no fallback entry (global hot
numbers, confidence 60) is produced, contradicting the claim that one of the
two must happen. -/
theorem C4_counterexample :
    generate_v5_recommendations
      [("10:00", ⟨5, "09:55", 60, [], [1, 2, 3]⟩)] ["10:00"] (some "11:00") = [] := by
  decide

/-- C4 (amended): for every time key absent from the computed slot summaries,
`generate_v5_recommendations` returns the empty recommendation mapping: it
neither signals an error nor returns a fallback.  (The documented fallback
with global hot numbers and confidence 60 exists only in the helper emitted
into the generated `keno_patterns_v5.py` module, not in this method.) -/
theorem C4_absent_key_empty (time_patterns : List (String × PatternData))
    (optimal_times : List String) (t : String)
    (h : t ∉ time_patterns.map Prod.fst) :
    generate_v5_recommendations time_patterns optimal_times (some t) = [] := by
  unfold generate_v5_recommendations
  simp [h]

/-- Witness for C4 (amended) at a concrete summary map and absent key. -/
theorem C4_absent_key_empty_witness :
    ("11:00" ∉ ([("10:00", (⟨5, "09:55", 60, [], [1, 2, 3]⟩ : PatternData))].map Prod.fst)) ∧
    generate_v5_recommendations
      [("10:00", ⟨5, "09:55", 60, [], [1, 2, 3]⟩)] ["10:00"] (some "11:00") = [] :=
  ⟨by decide, C4_absent_key_empty _ ["10:00"] _ (by decide)⟩

/-! ### C5: the confidence formula and its bounds -/

/-- C5: for every analysed slot (any pattern data with a non-negative
consistency score, which §C8 guarantees for the scores the analyzer
computes), the confidence equals
`min (50 + min(totalDraws*1.5, 25) + consistencyScore*0.4 + comboCount*2.0 +
timingBoost + optimalBoost) 95` with `timingBoost = 5` exactly when the
corrected time key differs from the raw key and `optimalBoost = 10` exactly
when the key is among the first 5 ranked optimal times; consequently the
confidence lies in `[50, 95]`. -/
theorem C5_confidence_formula_and_bounds (optimal_times : List String)
    (p : PatternData) (time_key : String) (hc : 0 ≤ p.consistency_score) :
    calculate_v5_confidence optimal_times p time_key =
      min (50 + min ((p.total_draws : ℚ) * 1.5) 25 + p.consistency_score * 0.4 +
        (p.frequent_combinations.length : ℚ) * 2.0 +
        (if p.corrected_time ≠ time_key then (5 : ℚ) else 0) +
        (if time_key ∈ optimal_times.take 5 then (10 : ℚ) else 0)) 95 ∧
    50 ≤ calculate_v5_confidence optimal_times p time_key ∧
    calculate_v5_confidence optimal_times p time_key ≤ 95 := by
  refine ⟨rfl, ?_, ?_⟩
  · unfold calculate_v5_confidence
    have h1 : (0 : ℚ) ≤ min ((p.total_draws : ℚ) * 1.5) 25 :=
      le_min (by positivity) (by norm_num)
    have h2 : (0 : ℚ) ≤ p.consistency_score * 0.4 := by positivity
    have h3 : (0 : ℚ) ≤ (p.frequent_combinations.length : ℚ) * 2.0 := by positivity
    have h4 : (0 : ℚ) ≤ (if p.corrected_time ≠ time_key then (5 : ℚ) else 0) := by
      split_ifs <;> norm_num
    have h5 : (0 : ℚ) ≤ (if time_key ∈ optimal_times.take 5 then (10 : ℚ) else 0) := by
      split_ifs <;> norm_num
    exact le_min (by linarith) (by norm_num)
  · exact min_le_right _ _

/-- Witness for C5 at a concrete pattern with consistency score 60. -/
theorem C5_confidence_formula_and_bounds_witness :
    (0 ≤ ((⟨7, "07:58", 60, [], []⟩ : PatternData)).consistency_score) ∧
    (50 ≤ calculate_v5_confidence [] ⟨7, "07:58", 60, [], []⟩ "08:03" ∧
      calculate_v5_confidence [] ⟨7, "07:58", 60, [], []⟩ "08:03" ≤ 95) :=
  ⟨by decide, (C5_confidence_formula_and_bounds [] ⟨7, "07:58", 60, [], []⟩
    "08:03" (by decide)).2⟩

/-! ### C9: the 5-minute window assigner -/

/-- `Nat.digitChar` is injective on single digits. -/
theorem digitChar_injOn {a b : ℕ} (ha : a < 10) (hb : b < 10)
    (h : Nat.digitChar a = Nat.digitChar b) : a = b := by
  interval_cases a <;> interval_cases b <;> revert h <;> decide

/-- `pad2` is injective on two-digit inputs. -/
theorem pad2_injOn {a b : ℕ} (ha : a < 100) (hb : b < 100)
    (h : pad2 a = pad2 b) : a = b := by
  have h' := congrArg String.data h
  simp only [pad2, List.cons.injEq, and_true] at h'
  have e1 : a / 10 = b / 10 :=
    digitChar_injOn (by omega) (by omega) h'.1
  have e2 : a % 10 = b % 10 :=
    digitChar_injOn (by omega) (by omega) h'.2
  omega

/-- For in-range minutes the rollover branch of the window assigner is dead:
the label is `HH:ws-HH:(ws+4)` with `ws = minute / 5 * 5`. -/
theorem create_v5_time_window_eq (hour minute : ℕ) (hm : minute ≤ 59) :
    create_v5_time_window hour minute =
      pad2 hour ++ ":" ++ pad2 (minute / 5 * 5) ++ "-" ++
        pad2 hour ++ ":" ++ pad2 (minute / 5 * 5 + 4) := by
  unfold create_v5_time_window
  rw [if_neg (by omega)]

/-- Equal window labels force equal components, for in-range components. -/
theorem window_label_inj {h h' ws ws' : ℕ} (hh : h < 100) (hh' : h' < 100)
    (hw : ws < 100) (hw' : ws' < 100)
    (heq : pad2 h ++ ":" ++ pad2 ws ++ "-" ++ pad2 h ++ ":" ++ pad2 (ws + 4) =
      pad2 h' ++ ":" ++ pad2 ws' ++ "-" ++ pad2 h' ++ ":" ++ pad2 (ws' + 4)) :
    h = h' ∧ ws = ws' := by
  have hd := congrArg String.data heq
  simp only [String.data_append, pad2] at hd
  simp only [List.cons_append, List.nil_append, List.cons.injEq, and_true] at hd
  obtain ⟨e1, e2, -, e3, e4, -⟩ := hd
  have hhd : h / 10 = h' / 10 := digitChar_injOn (by omega) (by omega) e1
  have hhm : h % 10 = h' % 10 := digitChar_injOn (by omega) (by omega) e2
  have hwd : ws / 10 = ws' / 10 := digitChar_injOn (by omega) (by omega) e3
  have hwm : ws % 10 = ws' % 10 := digitChar_injOn (by omega) (by omega) e4
  omega

/-- C9: for every hour in `[0,23]` and minute in `[0,59]`, the produced label
is `HH:ws-HH:we` with start `ws = minute/5*5` and end `we = ws + 4` (the
rollover branch of the source is unreachable for valid minutes, so no hour
rollover is ever needed); the input minute satisfies `ws ≤ minute ≤ we`; and
two valid inputs receive the same label exactly when they have the same hour
and the same 5-minute bucket — so the windows tile the day with no gaps or
overlaps. -/
theorem C9_window_assigner (hour minute : ℕ) (hh : hour ≤ 23) (hm : minute ≤ 59) :
    create_v5_time_window hour minute =
      pad2 hour ++ ":" ++ pad2 (minute / 5 * 5) ++ "-" ++
        pad2 hour ++ ":" ++ pad2 (minute / 5 * 5 + 4) ∧
    minute / 5 * 5 ≤ minute ∧ minute ≤ minute / 5 * 5 + 4 ∧
    (∀ hour' minute', hour' ≤ 23 → minute' ≤ 59 →
      (create_v5_time_window hour minute = create_v5_time_window hour' minute' ↔
        (hour = hour' ∧ minute / 5 = minute' / 5))) := by
  refine ⟨create_v5_time_window_eq hour minute hm, by omega, by omega, ?_⟩
  intro hour' minute' hh' hm'
  rw [create_v5_time_window_eq hour minute hm,
    create_v5_time_window_eq hour' minute' hm']
  constructor
  · intro heq
    have := window_label_inj (by omega) (by omega) (by omega) (by omega) heq
    omega
  · intro heq
    obtain ⟨e1, e2⟩ := heq
    rw [e1, e2]

/-- Witness for C9: the spec example, input `(9, 47)` gives `09:45-09:49`. -/
theorem C9_window_assigner_witness :
    ((9 : ℕ) ≤ 23 ∧ (47 : ℕ) ≤ 59) ∧
    create_v5_time_window 9 47 = "09:45-09:49" :=
  ⟨by decide, ((C9_window_assigner 9 47 (by decide) (by decide)).1).trans (by decide)⟩

/-! ### C8: bounds for both consistency scorers -/

/-- The exact-time consistency score is non-negative for every input. -/
theorem calculate_v5_consistency_nonneg (draws_list : List (List ℕ))
    (number_frequency : List (ℕ × ℕ)) :
    0 ≤ calculate_v5_consistency draws_list number_frequency := by
  simp only [calculate_v5_consistency]
  split_ifs with h1 h2
  · exact le_refl 0
  · exact le_min (add_nonneg (by positivity) (le_min (by positivity) (by norm_num)))
      (by norm_num)
  · exact le_min (add_nonneg (le_refl 0) (le_min (by positivity) (by norm_num)))
      (by norm_num)

/-- The exact-time consistency score never exceeds 100. -/
theorem calculate_v5_consistency_le_100 (draws_list : List (List ℕ))
    (number_frequency : List (ℕ × ℕ)) :
    calculate_v5_consistency draws_list number_frequency ≤ 100 := by
  simp only [calculate_v5_consistency]
  split_ifs with h1 h2
  · norm_num
  · exact min_le_right _ _
  · exact min_le_right _ _

/-- The window consistency score is non-negative for every input. -/
theorem calculate_window_consistency_v5_nonneg (draws_list : List (List ℕ)) :
    0 ≤ calculate_window_consistency_v5 draws_list := by
  simp only [calculate_window_consistency_v5]
  split_ifs with h1 h2
  · exact le_refl 0
  · exact le_min (le_refl 0) (by norm_num)
  · exact le_min (by positivity) (by norm_num)

/-- The window consistency score never exceeds 100. -/
theorem calculate_window_consistency_v5_le_100 (draws_list : List (List ℕ)) :
    calculate_window_consistency_v5 draws_list ≤ 100 := by
  simp only [calculate_window_consistency_v5]
  split_ifs with h1 h2
  · norm_num
  · exact min_le_right _ _
  · exact min_le_right _ _

/-- C8: for every input group (including empty groups and groups of empty
draws) both the exact-time consistency scorer and the window consistency
scorer return a value in `[0, 100]`. -/
theorem C8_consistency_bounds (draws_list : List (List ℕ))
    (number_frequency : List (ℕ × ℕ)) :
    (0 ≤ calculate_v5_consistency draws_list number_frequency ∧
      calculate_v5_consistency draws_list number_frequency ≤ 100) ∧
    (0 ≤ calculate_window_consistency_v5 draws_list ∧
      calculate_window_consistency_v5 draws_list ≤ 100) :=
  ⟨⟨calculate_v5_consistency_nonneg draws_list number_frequency,
      calculate_v5_consistency_le_100 draws_list number_frequency⟩,
    ⟨calculate_window_consistency_v5_nonneg draws_list,
      calculate_window_consistency_v5_le_100 draws_list⟩⟩

/-! ### C2: tiered structure of the persistent-numbers list -/

/-- Inserting an element that dominates every element of a suffix block `M`
never enters the block. -/
theorem orderedInsert_append {α : Type} (r : α → α → Prop) [DecidableRel r]
    (a : α) (X M : List α) (h : ∀ m ∈ M, r a m) :
    (X ++ M).orderedInsert r a = X.orderedInsert r a ++ M := by
  induction X with
  | nil =>
    cases M with
    | nil => rfl
    | cons m t => simp [List.orderedInsert, h m (List.mem_cons_self m t)]
  | cons x X ih =>
    simp only [List.cons_append, List.orderedInsert]
    split_ifs <;> simp [ih]

/-- A stable sort of a concatenation whose first block dominates the second
is the concatenation of the two sorted blocks. -/
theorem insertionSort_append {α : Type} (r : α → α → Prop) [DecidableRel r]
    (A M : List α) (h : ∀ a ∈ A, ∀ m ∈ M, r a m) :
    (A ++ M).insertionSort r = A.insertionSort r ++ M.insertionSort r := by
  induction A with
  | nil => simp
  | cons a A ih =>
    simp only [List.cons_append, List.insertionSort, List.append_eq]
    rw [ih (fun x hx => h x (List.mem_cons_of_mem a hx)),
      orderedInsert_append r a _ _
        (fun m hm => h a (List.mem_cons_self a A) m ((List.mem_insertionSort r).mp hm))]

/-- C2: for every windowed group and counter, `_find_v5_persistent_numbers`
classifies each item into at most one of the mutually exclusive tiers
(`very_high`: rate ≥ 0.40, `high`: 0.25 ≤ rate < 0.40, `moderate`:
0.15 ≤ rate < 0.25) and its output is the concatenation of the three tier
lists in that priority order, each tier sorted by raw occurrence count
descending.  (The source's single stable global sort coincides with this
tiered concatenation because, within one group, rate thresholds translate
into strict count separation between tiers.) -/
theorem C2_persistent_tiers (draws_list : List (List ℕ))
    (frequency_counter : List (ℕ × ℕ)) :
    find_v5_persistent_numbers draws_list frequency_counter =
      ((frequency_counter.filter (fun p =>
          (0.4 : ℚ) ≤ (p.2 : ℚ) / draws_list.length)).insertionSort countGe).map Prod.fst ++
      ((frequency_counter.filter (fun p =>
          (0.25 : ℚ) ≤ (p.2 : ℚ) / draws_list.length ∧
            (p.2 : ℚ) / draws_list.length < 0.4)).insertionSort countGe).map Prod.fst ++
      ((frequency_counter.filter (fun p =>
          (0.15 : ℚ) ≤ (p.2 : ℚ) / draws_list.length ∧
            (p.2 : ℚ) / draws_list.length < 0.25)).insertionSort countGe).map Prod.fst := by
  by_cases hd : draws_list = []
  · subst hd
    have e1 : (List.filter (fun p =>
        decide ((0.4 : ℚ) ≤ (p.2 : ℚ) / (List.length ([] : List (List ℕ)))))
        frequency_counter) = [] := by
      refine List.filter_eq_nil_iff.mpr fun a _ => ?_
      simp only [List.length_nil, Nat.cast_zero, div_zero, decide_eq_true_eq]
      norm_num
    have e2 : (List.filter (fun p =>
        decide ((0.25 : ℚ) ≤ (p.2 : ℚ) / (List.length ([] : List (List ℕ))) ∧
          (p.2 : ℚ) / (List.length ([] : List (List ℕ))) < 0.4))
        frequency_counter) = [] := by
      refine List.filter_eq_nil_iff.mpr fun a _ => ?_
      simp only [List.length_nil, Nat.cast_zero, div_zero, decide_eq_true_eq]
      rintro ⟨h1, -⟩
      norm_num at h1
    have e3 : (List.filter (fun p =>
        decide ((0.15 : ℚ) ≤ (p.2 : ℚ) / (List.length ([] : List (List ℕ))) ∧
          (p.2 : ℚ) / (List.length ([] : List (List ℕ))) < 0.25))
        frequency_counter) = [] := by
      refine List.filter_eq_nil_iff.mpr fun a _ => ?_
      simp only [List.length_nil, Nat.cast_zero, div_zero, decide_eq_true_eq]
      rintro ⟨h1, -⟩
      norm_num at h1
    simp only [find_v5_persistent_numbers, if_pos rfl, e1, e2, e3]
    simp
  · simp only [find_v5_persistent_numbers, if_neg hd]
    have hT : (0 : ℚ) < draws_list.length := by
      exact_mod_cast List.length_pos.mpr hd
    have step : ∀ a m : ℕ × ℕ,
        (m.2 : ℚ) / draws_list.length < (a.2 : ℚ) / draws_list.length → countGe a m := by
      intro a m h
      have h2 : (m.2 : ℚ) < (a.2 : ℚ) := (div_lt_div_iff_of_pos_right hT).mp h
      exact le_of_lt (by exact_mod_cast h2)
    have hhigh : List.filter (fun p =>
        decide (¬ ((0.4 : ℚ) ≤ (p.2 : ℚ) / draws_list.length) ∧
          (0.25 : ℚ) ≤ (p.2 : ℚ) / draws_list.length)) frequency_counter =
        List.filter (fun p =>
          decide ((0.25 : ℚ) ≤ (p.2 : ℚ) / draws_list.length ∧
            (p.2 : ℚ) / draws_list.length < 0.4)) frequency_counter := by
      refine List.filter_congr fun p _ => ?_
      refine decide_eq_decide.mpr ?_
      constructor
      · rintro ⟨h1, h2⟩
        exact ⟨h2, lt_of_not_le h1⟩
      · rintro ⟨h1, h2⟩
        exact ⟨not_le.mpr h2, h1⟩
    have hmod : List.filter (fun p =>
        decide (¬ ((0.4 : ℚ) ≤ (p.2 : ℚ) / draws_list.length) ∧
          ¬ ((0.25 : ℚ) ≤ (p.2 : ℚ) / draws_list.length) ∧
          (0.15 : ℚ) ≤ (p.2 : ℚ) / draws_list.length)) frequency_counter =
        List.filter (fun p =>
          decide ((0.15 : ℚ) ≤ (p.2 : ℚ) / draws_list.length ∧
            (p.2 : ℚ) / draws_list.length < 0.25)) frequency_counter := by
      refine List.filter_congr fun p _ => ?_
      refine decide_eq_decide.mpr ?_
      constructor
      · rintro ⟨-, h2, h3⟩
        exact ⟨h3, lt_of_not_le h2⟩
      · rintro ⟨h1, h2⟩
        refine ⟨not_le.mpr (lt_trans h2 (by norm_num)), not_le.mpr h2, h1⟩
    rw [hhigh, hmod]
    rw [insertionSort_append countGe _ _ ?hsplit1, insertionSort_append countGe _ _ ?hsplit2,
      List.map_append, List.map_append]
    case hsplit1 =>
      intro a ha m hm
      rcases List.mem_append.mp ha with ha' | ha'
      · have hha := of_decide_eq_true (List.mem_filter.mp ha').2
        have hhm := of_decide_eq_true (List.mem_filter.mp hm).2
        exact step a m (lt_of_lt_of_le (lt_of_lt_of_le hhm.2 (by norm_num)) hha)
      · have hha := of_decide_eq_true (List.mem_filter.mp ha').2
        have hhm := of_decide_eq_true (List.mem_filter.mp hm).2
        exact step a m (lt_of_lt_of_le hhm.2 hha.1)
    case hsplit2 =>
      intro a ha m hm
      have hha := of_decide_eq_true (List.mem_filter.mp ha).2
      have hhm := of_decide_eq_true (List.mem_filter.mp hm).2
      exact step a m (lt_of_lt_of_le hhm.2 hha)

/-! ### C7: hot-number ordering -/

/-- The distinct elements of a stream in order of first occurrence — the key
order of a `Counter` built from the stream. -/
def firstDedup {α : Type} [DecidableEq α] (xs : List α) : List α :=
  xs.foldl (fun acc x => if x ∈ acc then acc else acc ++ [x]) []

theorem counterOf_append_singleton {α : Type} [DecidableEq α] (l : List α) (x : α) :
    counterOf (l ++ [x]) = bump x (counterOf l) := by
  simp [counterOf, List.foldl_append]

theorem firstDedup_append_singleton {α : Type} [DecidableEq α] (l : List α) (x : α) :
    firstDedup (l ++ [x]) =
      if x ∈ firstDedup l then firstDedup l else firstDedup l ++ [x] := by
  simp [firstDedup, List.foldl_append]

theorem mem_firstDedup {α : Type} [DecidableEq α] (l : List α) :
    ∀ x : α, x ∈ firstDedup l ↔ x ∈ l := by
  induction l using List.reverseRecOn with
  | nil => intro x; simp [firstDedup]
  | append_singleton l y ih =>
    intro x
    rw [firstDedup_append_singleton]
    split_ifs with hy
    · have hyl : y ∈ l := (ih y).mp hy
      simp only [List.mem_append, List.mem_singleton, ih x]
      constructor
      · exact Or.inl
      · rintro (h | rfl)
        · exact h
        · exact hyl
    · simp [ih x]

theorem nodup_firstDedup {α : Type} [DecidableEq α] (l : List α) :
    (firstDedup l).Nodup := by
  induction l using List.reverseRecOn with
  | nil => simp [firstDedup]
  | append_singleton l y ih =>
    rw [firstDedup_append_singleton]
    split_ifs with hy
    · exact ih
    · refine List.Nodup.append ih (List.nodup_singleton y) ?_
      intro a ha hay
      rw [List.mem_singleton] at hay
      exact hy (hay ▸ ha)

theorem bump_of_not_mem_keys {α : Type} [DecidableEq α] {x : α} {c : List (α × ℕ)}
    (hx : x ∉ c.map Prod.fst) : bump x c = c ++ [(x, 1)] := by
  induction c with
  | nil => rfl
  | cons p t ih =>
    obtain ⟨a, n⟩ := p
    simp only [List.map_cons, List.mem_cons, not_or] at hx
    simp only [bump, if_neg (Ne.symm hx.1), List.cons_append, ih hx.2]

theorem bump_map_of_mem {α : Type} [DecidableEq α] {x : α} {d : List α}
    (f : α → ℕ) (hd : d.Nodup) (hx : x ∈ d) :
    bump x (d.map (fun k => (k, f k))) =
      d.map (fun k => (k, f k + if k = x then 1 else 0)) := by
  induction d with
  | nil => cases hx
  | cons a t ih =>
    by_cases hax : a = x
    · subst hax
      have hnot : a ∉ t := (List.nodup_cons.mp hd).1
      have htail : List.map (fun k => (k, f k + if k = a then 1 else 0)) t =
          List.map (fun k => (k, f k)) t := by
        refine List.map_congr_left fun k hk => ?_
        have hkx : k ≠ a := fun h => hnot (h ▸ hk)
        rw [if_neg hkx, add_zero]
      simp only [List.map_cons, bump, htail]
      simp
    · have hx' : x ∈ t := by
        rcases List.mem_cons.mp hx with h | h
        · exact absurd h.symm hax
        · exact h
      simp only [List.map_cons, bump, if_neg hax, add_zero,
        ih (List.nodup_cons.mp hd).2 hx']

/-- The counter of a stream is exactly the first-occurrence key list paired
with the total occurrence counts of the stream. -/
theorem counterOf_eq_map {α : Type} [DecidableEq α] (l : List α) :
    counterOf l = (firstDedup l).map (fun k => (k, l.count k)) := by
  induction l using List.reverseRecOn with
  | nil => simp [counterOf, firstDedup]
  | append_singleton l x ih =>
    rw [counterOf_append_singleton, ih, firstDedup_append_singleton]
    have hcount : ∀ k : α, (l ++ [x]).count k = l.count k + if k = x then 1 else 0 := by
      intro k
      rw [List.count_append, List.count_singleton]
      by_cases h : k = x
      · simp [h]
      · simp [h, Ne.symm h]
    split_ifs with hx
    · rw [bump_map_of_mem (fun k => l.count k) (nodup_firstDedup l) hx]
      refine List.map_congr_left fun k _ => ?_
      rw [hcount k]
    · have hkeys : x ∉ (List.map (fun k => (k, l.count k))
          (firstDedup l)).map Prod.fst := by
        rw [List.map_map]
        have hc : (Prod.fst ∘ fun k : α => (k, l.count k)) = id := rfl
        rw [hc, List.map_id]
        exact hx
      rw [bump_of_not_mem_keys hkeys]
      rw [List.map_append]
      congr 1
      · refine List.map_congr_left fun k hk => ?_
        have hkx : k ≠ x := fun h => hx (h ▸ hk)
        rw [hcount k, if_neg hkx, add_zero]
      · have hxl : x ∉ l := fun h => hx ((mem_firstDedup l x).mpr h)
        simp [hcount x, List.count_eq_zero.mpr hxl]

/-- The keys of a counter are the stream's distinct values in
first-occurrence order. -/
theorem counter_keys {α : Type} [DecidableEq α] (l : List α) :
    (counterOf l).map Prod.fst = firstDedup l := by
  rw [counterOf_eq_map, List.map_map]
  have hc : (Prod.fst ∘ fun k : α => (k, l.count k)) = id := rfl
  rw [hc, List.map_id]

/-- Counter keys are distinct. -/
theorem counter_keys_nodup {α : Type} [DecidableEq α] (l : List α) :
    ((counterOf l).map Prod.fst).Nodup := by
  rw [counter_keys]
  exact nodup_firstDedup l

/-- Membership in a counter characterised by stream counts. -/
theorem mem_counterOf {α : Type} [DecidableEq α] {p : α × ℕ} {l : List α} :
    p ∈ counterOf l ↔ p.1 ∈ l ∧ p.2 = l.count p.1 := by
  rw [counterOf_eq_map]
  constructor
  · intro hp
    obtain ⟨k, hk, hkp⟩ := List.mem_map.mp hp
    obtain rfl := hkp.symm
    exact ⟨(mem_firstDedup l k).mp hk, rfl⟩
  · rintro ⟨h1, h2⟩
    refine List.mem_map.mpr ⟨p.1, (mem_firstDedup l p.1).mpr h1, ?_⟩
    exact Prod.ext rfl h2.symm

/-- The hot-number rule as the amended claim words it: the distinct numbers
of the flattened draw stream in first-occurrence order, stably sorted by
descending stream count, truncated to the top 15. -/
def hot_numbers_spec (draws_list : List (List ℕ)) : List ℕ :=
  ((firstDedup draws_list.flatten).insertionSort
    (fun a b => draws_list.flatten.count b ≤ draws_list.flatten.count a)).take 15

/-- The ordering rule the original claim asserts for hot numbers: descending
count with ties broken by ascending numeric value. -/
def hotClaimOrder (stream : List ℕ) (x y : ℕ) : Bool :=
  decide (stream.count y < stream.count x) ||
    (decide (stream.count x = stream.count y) && decide (x < y))

/-- C7 counterexample: the qualifying group (5 draws)
`[[5,9],[3,9],[1,2],[1,2],[1,2]]` produces hot numbers `[1,2,9,5,3]`; the
tied singles 5 and 3 appear in first-occurrence order, not ascending numeric
order, so consecutive elements violate the claimed count-then-numeric
ordering. -/
theorem C7_counterexample :
    5 ≤ ([[5, 9], [3, 9], [1, 2], [1, 2], [1, 2]] : List (List ℕ)).length ∧
    hot_numbers [[5, 9], [3, 9], [1, 2], [1, 2], [1, 2]] = [1, 2, 9, 5, 3] ∧
    chainB (hotClaimOrder ([[5, 9], [3, 9], [1, 2], [1, 2], [1, 2]] :
        List (List ℕ)).flatten)
      (hot_numbers [[5, 9], [3, 9], [1, 2], [1, 2], [1, 2]]) = false :=
  ⟨by decide, by decide, by decide⟩

/-- C7 (amended): the hot-numbers list is the top-15 numbers by descending
occurrence count with a deterministic tie-break — ties are resolved by the
order of first occurrence in the flattened draw stream (the counter's
insertion order), not by ascending numeric value. -/
theorem C7_hot_numbers_stable (draws_list : List (List ℕ)) :
    hot_numbers draws_list = hot_numbers_spec draws_list := by
  unfold hot_numbers hot_numbers_spec mostCommon
  rw [counterOf_eq_map]
  rw [← List.map_insertionSort (fun a b =>
      draws_list.flatten.count b ≤ draws_list.flatten.count a) countGe
      (fun k => (k, draws_list.flatten.count k)) (firstDedup draws_list.flatten)
      (fun _ _ _ _ => Iff.rfl)]
  rw [← List.map_take, List.map_map]
  have hc : (Prod.fst ∘ fun k : ℕ => (k, draws_list.flatten.count k)) = id := rfl
  rw [hc, List.map_id]

/-! ### C3: combination analysis -/

/-- The ordering the original claim asserts for emitted combinations:
occurrence count descending, ties broken by lexicographic ordering of the
sorted number tuple. -/
def comboClaimOrder (a b : List ℕ × ℕ × ℚ) : Bool :=
  decide (b.2.1 < a.2.1) || (decide (a.2.1 = b.2.1) && lexLtB a.1 b.1)

/-- C3 counterexample: for the 3-draw group `[[2,3,9],[2,3,9],[1,4,5]]` the
four retained combinations all have occurrence count 2 and are emitted in
first-enumeration order `[2,3],[2,9],[3,9],[2,3,9]`; lexicographic tie-break
would instead put `[2,3,9]` before `[2,9]`, so consecutive output records
violate the claimed ordering. -/
theorem C3_counterexample :
    3 ≤ ([[2, 3, 9], [2, 3, 9], [1, 4, 5]] : List (List ℕ)).length ∧
    (analyze_v5_combinations [[2, 3, 9], [2, 3, 9], [1, 4, 5]]).map (fun e => e.1) =
      [[2, 3], [2, 9], [3, 9], [2, 3, 9]] ∧
    chainB comboClaimOrder (analyze_v5_combinations [[2, 3, 9], [2, 3, 9], [1, 4, 5]]) =
      false :=
  ⟨by decide, by decide, by decide⟩

/-- Number of occurrences of `x` in `l` (`l.count x`, with the `BEq`
instance fixed to the one induced by decidable equality, so that it lines up
syntactically with the counter lemmas). -/
def streamCount {α : Type} [DecidableEq α] (x : α) (l : List α) : ℕ := l.count x

/-- The amended combination rule, stated from the claim's own words: retain
the distinct enumerated combinations — in first-enumeration order — that
occur at least twice in the 2- and 3-subset stream, pair each with its true
occurrence count and the percentage `occurrences / totalDrawsInGroup * 100`,
stably sort by occurrence count descending (so ties keep first-enumeration
order) and emit the first 10. -/
def analyze_v5_combinations_spec (draws_list : List (List ℕ)) :
    List (List ℕ × ℕ × ℚ) :=
  if draws_list.length < 3 then [] else
    let stream : List (List ℕ) := draws_list.flatMap drawCombos
    ((((firstDedup stream).filter (fun c => 2 ≤ streamCount c stream)).map
        (fun c => (c, streamCount c stream,
          ((streamCount c stream : ℚ) / draws_list.length) * 100))).insertionSort
      freqGe).take 10

/-- The combination analysis of the source coincides with the amended rule
on every group: the fold-built counter is the first-occurrence key list
paired with the stream counts, and filtering, sorting and truncation
commute with that representation. -/
theorem analyze_v5_combinations_eq_spec (draws_list : List (List ℕ)) :
    analyze_v5_combinations draws_list = analyze_v5_combinations_spec draws_list := by
  simp only [analyze_v5_combinations, analyze_v5_combinations_spec, streamCount]
  by_cases h3 : draws_list.length < 3
  · rw [if_pos h3, if_pos h3]
  · rw [if_neg h3, if_neg h3]
    rw [counterOf_eq_map (draws_list.flatMap drawCombos), List.filter_map,
      List.map_map]
    exact rfl

/-- C3 (amended): for every group of draws the combination analysis equals
the amended rule — retain exactly the 2- and 3-element sorted subsets
occurring at least twice, stably sort by count descending (ties in
first-enumeration order, not lexicographic) and emit the first 10.  In
particular each emitted record has count at least 2 equal to its counter
value and percentage `occurrences / totalDrawsInGroup * 100`; the output is
count-descending and has at most 10 records; when at most 10 combinations
survive, every retained combination is emitted; and when more than 10
survive, the emitted records are 10 in number and each of their counts
dominates the count of every retained combination left out. -/
theorem C3_combinations_amended (draws_list : List (List ℕ)) :
    analyze_v5_combinations draws_list = analyze_v5_combinations_spec draws_list ∧
    (∀ e ∈ analyze_v5_combinations draws_list,
      2 ≤ e.2.1 ∧ (e.1, e.2.1) ∈ counterOf (draws_list.flatMap drawCombos) ∧
        e.2.2 = ((e.2.1 : ℚ) / draws_list.length) * 100) ∧
    ((analyze_v5_combinations draws_list).map (fun e => e.2.1)).Pairwise
      (fun x y => y ≤ x) ∧
    (analyze_v5_combinations draws_list).length ≤ 10 ∧
    (3 ≤ draws_list.length →
      ((counterOf (draws_list.flatMap drawCombos)).filter
        (fun p => 2 ≤ p.2)).length ≤ 10 →
      ∀ p ∈ counterOf (draws_list.flatMap drawCombos), 2 ≤ p.2 →
        p.1 ∈ (analyze_v5_combinations draws_list).map (fun e => e.1)) ∧
    (3 ≤ draws_list.length →
      ∀ p ∈ counterOf (draws_list.flatMap drawCombos), 2 ≤ p.2 →
        p.1 ∉ (analyze_v5_combinations draws_list).map (fun e => e.1) →
        (analyze_v5_combinations draws_list).length = 10 ∧
          ∀ e ∈ analyze_v5_combinations draws_list, p.2 ≤ e.2.1) := by
  refine ⟨analyze_v5_combinations_eq_spec draws_list, ?_⟩
  by_cases h3 : draws_list.length < 3
  · refine ⟨?_, ?_, ?_, ?_, ?_⟩ <;>
      simp only [analyze_v5_combinations, if_pos h3]
    · intro e he
      cases he
    · exact List.Pairwise.nil
    · simp
    · intro h3'
      omega
    · intro h3'
      omega
  · simp only [analyze_v5_combinations, if_neg h3]
    refine ⟨?_, ?_, ?_, ?_, ?_⟩
    · intro e he
      have he2 : e ∈ ((counterOf (draws_list.flatMap drawCombos)).filter
          (fun p => 2 ≤ p.2)).map
            (fun p => (p.1, p.2, ((p.2 : ℚ) / draws_list.length) * 100)) :=
        (List.mem_insertionSort freqGe).mp ((List.take_sublist _ _).subset he)
      obtain ⟨p, hp, rfl⟩ := List.mem_map.mp he2
      obtain ⟨hpc, hp2⟩ := List.mem_filter.mp hp
      exact ⟨of_decide_eq_true hp2, hpc, rfl⟩
    · refine List.Pairwise.map _ (fun a b h => h) ?_
      exact List.Pairwise.sublist (List.take_sublist _ _)
        (List.sorted_insertionSort freqGe _)
    · exact List.length_take_le _ _
    · intro _ hlen p hp hp2
      have hfc : (((counterOf (draws_list.flatMap drawCombos)).filter
          (fun p => 2 ≤ p.2)).map
            (fun p => (p.1, p.2, ((p.2 : ℚ) / draws_list.length) * 100))).length ≤ 10 := by
        rw [List.length_map]
        exact hlen
      rw [List.take_of_length_le (by rw [List.length_insertionSort]; exact hfc)]
      refine List.mem_map.mpr ⟨(p.1, p.2, ((p.2 : ℚ) / draws_list.length) * 100), ?_, rfl⟩
      refine (List.mem_insertionSort freqGe).mpr ?_
      exact List.mem_map.mpr ⟨p, List.mem_filter.mpr ⟨hp, decide_eq_true hp2⟩, rfl⟩
    · intro _ p hp hp2 hnot
      have hgp : (p.1, p.2, ((p.2 : ℚ) / draws_list.length) * 100) ∈
          (((counterOf (draws_list.flatMap drawCombos)).filter
            (fun p => 2 ≤ p.2)).map
              (fun p => (p.1, p.2, ((p.2 : ℚ) / draws_list.length) * 100))).insertionSort
            freqGe :=
        (List.mem_insertionSort freqGe).mpr
          (List.mem_map.mpr ⟨p, List.mem_filter.mpr ⟨hp, decide_eq_true hp2⟩, rfl⟩)
      have hsplit := List.take_append_drop 10
        ((((counterOf (draws_list.flatMap drawCombos)).filter
          (fun p => 2 ≤ p.2)).map
            (fun p => (p.1, p.2, ((p.2 : ℚ) / draws_list.length) * 100))).insertionSort
          freqGe)
      rw [← hsplit] at hgp
      have hdrop : (p.1, p.2, ((p.2 : ℚ) / draws_list.length) * 100) ∈
          ((((counterOf (draws_list.flatMap drawCombos)).filter
            (fun p => 2 ≤ p.2)).map
              (fun p => (p.1, p.2, ((p.2 : ℚ) / draws_list.length) * 100))).insertionSort
            freqGe).drop 10 := by
        rcases List.mem_append.mp hgp with h | h
        · exact absurd (List.mem_map.mpr ⟨_, h, rfl⟩) hnot
        · exact h
      have hlen10 : 10 < ((((counterOf (draws_list.flatMap drawCombos)).filter
          (fun p => 2 ≤ p.2)).map
            (fun p => (p.1, p.2, ((p.2 : ℚ) / draws_list.length) * 100))).insertionSort
          freqGe).length := by
        by_contra hle
        push_neg at hle
        rw [List.drop_eq_nil_iff.mpr hle] at hdrop
        cases hdrop
      refine ⟨?_, ?_⟩
      · rw [List.length_take]
        exact min_eq_left (le_of_lt hlen10)
      · intro e he
        have hpair := List.sorted_insertionSort freqGe
          (((counterOf (draws_list.flatMap drawCombos)).filter
            (fun p => 2 ≤ p.2)).map
              (fun p => (p.1, p.2, ((p.2 : ℚ) / draws_list.length) * 100)))
        rw [← hsplit] at hpair
        exact (List.pairwise_append.mp hpair).2.2 e he _ hdrop

/-- Witness for C3 (amended): in `[[1,2,3],[1,2,4],[5,6,7]]` the pair `(1,2)`
occurs in 2 of the 3 draws, so it is retained (its record carries percentage
`2/3*100 ≈ 66.7`) and appears in the output. -/
theorem C3_combinations_amended_witness :
    (3 ≤ ([[1, 2, 3], [1, 2, 4], [5, 6, 7]] : List (List ℕ)).length ∧
      ((counterOf (([[1, 2, 3], [1, 2, 4], [5, 6, 7]] :
          List (List ℕ)).flatMap drawCombos)).filter
        (fun p => 2 ≤ p.2)).length ≤ 10 ∧
      ([1, 2], 2) ∈ counterOf (([[1, 2, 3], [1, 2, 4], [5, 6, 7]] :
          List (List ℕ)).flatMap drawCombos)) ∧
    [1, 2] ∈ (analyze_v5_combinations [[1, 2, 3], [1, 2, 4], [5, 6, 7]]).map
      (fun e => e.1) :=
  ⟨⟨by decide, by decide, by decide⟩,
    (C3_combinations_amended [[1, 2, 3], [1, 2, 4], [5, 6, 7]]).2.2.2.2.1 (by decide)
      (by decide) ([1, 2], 2) (by decide) (by decide)⟩

/-! ### C6: monotonicity of the exact-time consistency score -/

theorem sum_le_of_sublist {t w : List ℕ} (h : t.Sublist w) : t.sum ≤ w.sum := by
  induction h with
  | slnil => simp
  | cons a h ih =>
    rw [List.sum_cons]
    omega
  | cons₂ a h ih =>
    rw [List.sum_cons, List.sum_cons]
    omega

theorem sum_take_mono (w : List ℕ) {m n : ℕ} (h : m ≤ n) :
    (w.take m).sum ≤ (w.take n).sum := by
  rw [show n = m + (n - m) from (Nat.add_sub_cancel' h).symm, List.take_add,
    List.sum_append]
  exact Nat.le_add_right _ _

theorem sum_take_succ_le {w : List ℕ} {n a : ℕ} (h : ∀ x ∈ w, x ≤ a) :
    (w.take (n + 1)).sum ≤ (w.take n).sum + a := by
  rw [List.take_succ, List.sum_append]
  cases hw : w[n]? with
  | none => simp
  | some y =>
    have hy : y ∈ w := by
      obtain ⟨hlt, he⟩ := List.getElem?_eq_some.mp hw
      exact he ▸ List.getElem_mem hlt
    have := h y hy
    simp only [Option.toList, List.sum_cons, List.sum_nil]
    omega

/-- A sublist of a descending list is bounded by the same number of leading
elements. -/
theorem sum_sublist_le_sum_take {t w : List ℕ} (h : t.Sublist w) :
    w.Pairwise (fun a b => b ≤ a) → t.sum ≤ (w.take t.length).sum := by
  induction h with
  | slnil =>
    intro _
    simp
  | @cons l₁ l₂ a h ih =>
    intro hw
    have ih2 := ih (List.pairwise_cons.mp hw).2
    have hha : ∀ x ∈ l₂, x ≤ a := (List.pairwise_cons.mp hw).1
    rcases hl : l₁.length with _ | n
    · obtain rfl := List.length_eq_zero.mp hl
      simp
    · rw [List.take_succ_cons, List.sum_cons]
      have h3 : (l₂.take (n + 1)).sum ≤ (l₂.take n).sum + a := sum_take_succ_le hha
      rw [hl] at ih2
      omega
  | @cons₂ l₁ l₂ a h ih =>
    intro hw
    have ih2 := ih (List.pairwise_cons.mp hw).2
    rw [List.length_cons, List.take_succ_cons, List.sum_cons, List.sum_cons]
    omega

/-- The `k` largest elements of a descending list dominate every
sub-multiset of at most `k` elements. -/
theorem sum_subperm_le_sum_take {s w : List ℕ} {n : ℕ}
    (hw : w.Pairwise (fun a b => b ≤ a)) (h : s.Subperm w) (hn : s.length ≤ n) :
    s.sum ≤ (w.take n).sum := by
  obtain ⟨t, htp, hts⟩ := h
  have h1 : t.sum ≤ (w.take t.length).sum := sum_sublist_le_sum_take hts hw
  have h2 : (w.take t.length).sum ≤ (w.take n).sum :=
    sum_take_mono w (by rw [htp.length_eq]; exact hn)
  calc s.sum = t.sum := htp.sum_eq.symm
    _ ≤ (w.take t.length).sum := h1
    _ ≤ (w.take n).sum := h2

theorem sum_indicator_of_not_mem {α : Type} [DecidableEq α] {S : List α} {y : α}
    (hy : y ∉ S) : (S.map (fun k => if y = k then 1 else 0)).sum = 0 := by
  induction S with
  | nil => simp
  | cons a t ih =>
    simp only [List.mem_cons, not_or] at hy
    simp only [List.map_cons, List.sum_cons, if_neg hy.1, ih hy.2]

theorem sum_indicator_of_mem {α : Type} [DecidableEq α] {S : List α} {y : α}
    (hS : S.Nodup) (hy : y ∈ S) :
    (S.map (fun k => if y = k then 1 else 0)).sum = 1 := by
  induction S with
  | nil => cases hy
  | cons a t ih =>
    rcases List.mem_cons.mp hy with rfl | hyt
    · have hnot : y ∉ t := (List.nodup_cons.mp hS).1
      simp only [List.map_cons, List.sum_cons, sum_indicator_of_not_mem hnot]
      simp
    · have hya : y ≠ a := fun h => (List.nodup_cons.mp hS).1 (h ▸ hyt)
      simp only [List.map_cons, List.sum_cons, if_neg hya,
        ih (List.nodup_cons.mp hS).2 hyt]

/-- Summing occurrence counts over a duplicate-free list of keys covering a
stream gives the stream length. -/
theorem sum_count_eq_length {α : Type} [DecidableEq α] {S : List α} {l : List α}
    (hS : S.Nodup) (hl : ∀ x ∈ l, x ∈ S) :
    (S.map (fun k => l.count k)).sum = l.length := by
  induction l with
  | nil => simp
  | cons y t ih =>
    have hmap : S.map (fun k => (y :: t).count k) =
        S.map (fun k => t.count k + if y = k then 1 else 0) := by
      refine List.map_congr_left fun k _ => ?_
      rw [List.count_cons]
      by_cases h : y = k <;> simp [h]
    rw [hmap, List.sum_map_add, ih (fun x hx => hl x (List.mem_cons_of_mem y hx)),
      sum_indicator_of_mem hS (hl y (List.mem_cons_self y t)), List.length_cons]

/-- The counts stored in a counter sum to the stream length. -/
theorem sum_snd_counterOf {α : Type} [DecidableEq α] (l : List α) :
    ((counterOf l).map (fun p => p.2)).sum = l.length := by
  rw [counterOf_eq_map, List.map_map]
  have hc : ((fun p : α × ℕ => p.2) ∘ fun k => (k, l.count k)) =
      fun k => l.count k := rfl
  rw [hc]
  exact sum_count_eq_length (nodup_firstDedup l)
    (fun x hx => (mem_firstDedup l x).mpr hx)

/-- Appending a draw whose numbers all lie among the current `top_numbers`
raises the top-10 appearance mass by at least the draw length. -/
theorem top10_sum_step (G : List (List ℕ)) (d : List ℕ)
    (hd : ∀ x ∈ d, x ∈ top_numbers G) :
    ((mostCommon (counterOf G.flatten) 10).map (fun p => p.2)).sum + d.length ≤
      ((mostCommon (counterOf (G.flatten ++ d)) 10).map (fun p => p.2)).sum := by
  classical
  set old := counterOf G.flatten with hold
  set nw := counterOf (G.flatten ++ d) with hnw
  set t10 := mostCommon old 10 with ht10
  set s := t10.map (fun p => (p.1, p.2 + d.count p.1)) with hs
  have ht10old : ∀ p ∈ t10, p ∈ old := fun p hp =>
    (List.mem_insertionSort countGe).mp ((List.take_sublist _ _).subset hp)
  have hkeys : s.map Prod.fst = t10.map Prod.fst := by
    rw [hs, List.map_map]
    rfl
  have ht10keys : (t10.map Prod.fst).Nodup := by
    have hperm : ((old.insertionSort countGe).map Prod.fst).Nodup :=
      ((List.perm_insertionSort countGe old).map Prod.fst).nodup_iff.mpr
        (counter_keys_nodup G.flatten)
    have htake : t10.map Prod.fst = ((old.insertionSort countGe).map Prod.fst).take 10 := by
      rw [ht10]
      unfold mostCommon
      rw [List.map_take]
    rw [htake]
    exact List.Nodup.sublist (List.take_sublist _ _) hperm
  have hsnw : ∀ q ∈ s, q ∈ nw := by
    intro q hq
    obtain ⟨p, hp, rfl⟩ := List.mem_map.mp hq
    have hpo := mem_counterOf.mp (ht10old p hp)
    refine mem_counterOf.mpr ⟨List.mem_append.mpr (Or.inl hpo.1), ?_⟩
    show p.2 + d.count p.1 = (G.flatten ++ d).count p.1
    rw [List.count_append, hpo.2]
  have hsn : s.Nodup := by
    refine List.Nodup.of_map Prod.fst ?_
    rw [hkeys]
    exact ht10keys
  have hsp : s.Subperm nw := List.Nodup.subperm hsn (fun q hq => hsnw q hq)
  obtain ⟨t, htp, hts⟩ := hsp
  have hmap : (s.map (fun p => p.2)).Subperm
      ((nw.insertionSort countGe).map (fun p => p.2)) := by
    refine List.Subperm.trans ⟨t.map (fun p => p.2), htp.map _, hts.map _⟩ ?_
    exact ((List.perm_insertionSort countGe nw).symm.map _).subperm
  have hlen : (s.map (fun p => p.2)).length ≤ 10 := by
    rw [List.length_map, hs, List.length_map, ht10]
    exact List.length_take_le _ _
  have hpair : ((nw.insertionSort countGe).map (fun p => p.2)).Pairwise
      (fun a b => b ≤ a) :=
    List.Pairwise.map _ (fun a b h => h) (List.sorted_insertionSort countGe nw)
  have hkey := sum_subperm_le_sum_take hpair hmap hlen
  have hsum : (s.map (fun p => p.2)).sum =
      (t10.map (fun p => p.2)).sum + d.length := by
    rw [hs, List.map_map]
    have hc : ((fun p : ℕ × ℕ => p.2) ∘ fun p : ℕ × ℕ => (p.1, p.2 + d.count p.1)) =
        fun p : ℕ × ℕ => p.2 + d.count p.1 := rfl
    rw [hc, List.sum_map_add]
    congr 1
    have hc2 : (t10.map (fun p : ℕ × ℕ => d.count p.1)).sum =
        ((t10.map Prod.fst).map (fun k => d.count k)).sum := by
      rw [List.map_map]
      rfl
    rw [hc2]
    exact sum_count_eq_length ht10keys hd
  have hrhs : ((mostCommon nw 10).map (fun p => p.2)).sum =
      (((nw.insertionSort countGe).map (fun p => p.2)).take 10).sum := by
    unfold mostCommon
    rw [List.map_take]
  rw [hrhs, ← hsum]
  exact hkey

/-- Arithmetic core of the monotonicity argument, over the exact components
of `_calculate_v5_consistency`. -/
theorem score_mono {Told Tnew Nold k Dold Dnew : ℕ}
    (hTN : Told ≤ Nold) (hstep : Told + k ≤ Tnew) (hD : Dold ≤ Dnew) :
    min ((if 0 < Nold then (Told : ℚ) / (Nold : ℚ) * 100 else 0) +
      min ((Dold : ℚ) / 20) 5) 100 ≤
    min ((if 0 < Nold + k then (Tnew : ℚ) / ((Nold + k : ℕ) : ℚ) * 100 else 0) +
      min ((Dnew : ℚ) / 20) 5) 100 := by
  have hDq : (Dold : ℚ) / 20 ≤ (Dnew : ℚ) / 20 := by
    have : (Dold : ℚ) ≤ (Dnew : ℚ) := by exact_mod_cast hD
    linarith
  by_cases hNold : 0 < Nold
  · have hNnew : 0 < Nold + k := lt_of_lt_of_le hNold (Nat.le_add_right _ _)
    rw [if_pos hNold, if_pos hNnew]
    have hraw : (Told : ℚ) / (Nold : ℚ) ≤ (Tnew : ℚ) / ((Nold + k : ℕ) : ℚ) := by
      rw [div_le_div_iff₀ (by exact_mod_cast hNold) (by exact_mod_cast hNnew)]
      have hn : Told * (Nold + k) ≤ Tnew * Nold := by nlinarith
      exact_mod_cast hn
    refine min_le_min (add_le_add ?_ (min_le_min hDq le_rfl)) le_rfl
    nlinarith
  · rw [if_neg hNold]
    have h0 : (0 : ℚ) ≤ (if 0 < Nold + k then (Tnew : ℚ) / ((Nold + k : ℕ) : ℚ) * 100
        else 0) := by
      split_ifs
      · positivity
      · exact le_refl 0
    refine min_le_min ?_ le_rfl
    have := min_le_min hDq (le_refl (5 : ℚ))
    linarith

/-- C6 counterexample: the single-draw group `[[1]]` has consistency score
100; appending the draw `[1,2,…,11]` — which repeats the group's (only) hot
number 1 — dilutes the top-10 mass and drops the score to 2753/30 < 100, so
a draw containing a hot number can strictly decrease the score. -/
theorem C6_counterexample :
    ((1 : ℕ) ∈ ([1, 2, 3, 4, 5, 6, 7, 8, 9, 10, 11] : List ℕ) ∧
      1 ∈ hot_numbers [[1]]) ∧
    calculate_v5_consistency ([[1]] ++ [[1, 2, 3, 4, 5, 6, 7, 8, 9, 10, 11]])
        (counterOf (([[1]] : List (List ℕ)) ++
          [[1, 2, 3, 4, 5, 6, 7, 8, 9, 10, 11]]).flatten) <
      calculate_v5_consistency [[1]] (counterOf ([[1]] : List (List ℕ)).flatten) := by
  refine ⟨⟨by decide, by decide⟩, ?_⟩
  have e : ([[1]] : List (List ℕ)) ++ [[1, 2, 3, 4, 5, 6, 7, 8, 9, 10, 11]] =
      [[1], [1, 2, 3, 4, 5, 6, 7, 8, 9, 10, 11]] := rfl
  rw [e]
  have h1 : counterOf ([[1], [1, 2, 3, 4, 5, 6, 7, 8, 9, 10, 11]] :
      List (List ℕ)).flatten =
      [(1, 2), (2, 1), (3, 1), (4, 1), (5, 1), (6, 1), (7, 1), (8, 1), (9, 1),
        (10, 1), (11, 1)] := by decide
  have h2 : counterOf (([[1]] : List (List ℕ))).flatten = [(1, 1)] := by decide
  rw [calculate_v5_consistency, calculate_v5_consistency, h1, h2]
  have h3 : mostCommon [(1, 2), (2, 1), (3, 1), (4, 1), (5, 1), (6, 1), (7, 1),
      (8, 1), (9, 1), (10, 1), (11, 1)] 10 =
      [(1, 2), (2, 1), (3, 1), (4, 1), (5, 1), (6, 1), (7, 1), (8, 1), (9, 1),
        (10, 1)] := by decide
  have h4 : mostCommon [(1, 1)] 10 = [(1, 1)] := by decide
  rw [h3, h4]
  rw [if_neg (show ¬([[1], [1, 2, 3, 4, 5, 6, 7, 8, 9, 10, 11]] :
      List (List ℕ)) = [] from by decide),
    if_neg (show ¬([[1]] : List (List ℕ)) = [] from by decide)]
  norm_num

/-- C6 (amended): appending a draw **all** of whose numbers already lie among
the group's 10 most frequent numbers (the `top_numbers` the scorer itself
counts) never decreases the exact-time consistency score of the group.  A
draw that merely contains one hot number can decrease the score by diluting
the top-10 mass with new numbers, as the counterexample shows. -/
theorem C6_consistency_monotone (G : List (List ℕ)) (d : List ℕ)
    (hd : ∀ x ∈ d, x ∈ top_numbers G) :
    calculate_v5_consistency G (counterOf G.flatten) ≤
      calculate_v5_consistency (G ++ [d]) (counterOf (G ++ [d]).flatten) := by
  by_cases hG : G = []
  · subst hG
    have h0 : calculate_v5_consistency [] (counterOf ([] : List (List ℕ)).flatten) = 0 := by
      simp [calculate_v5_consistency]
    rw [h0]
    exact calculate_v5_consistency_nonneg _ _
  · have hG' : ¬(G ++ [d] = []) := by simp
    have hflat : (G ++ [d]).flatten = G.flatten ++ d := by simp
    have hTN : ((mostCommon (counterOf G.flatten) 10).map (fun p => p.2)).sum ≤
        (G.map List.length).sum := by
      have h1 : ((mostCommon (counterOf G.flatten) 10).map (fun p => p.2)).sum ≤
          (((counterOf G.flatten).insertionSort countGe).map (fun p => p.2)).sum := by
        unfold mostCommon
        rw [List.map_take]
        exact sum_le_of_sublist (List.take_sublist _ _)
      have h2 : (((counterOf G.flatten).insertionSort countGe).map
          (fun p => p.2)).sum = ((counterOf G.flatten).map (fun p => p.2)).sum :=
        ((List.perm_insertionSort countGe _).map _).sum_eq
      rw [h2, sum_snd_counterOf, List.length_flatten] at h1
      exact h1
    have hstep := top10_sum_step G d hd
    simp only [calculate_v5_consistency]
    rw [if_neg hG, if_neg hG']
    have hN : ((G ++ [d]).map List.length).sum = (G.map List.length).sum + d.length := by
      simp
    have hL : (G ++ [d]).length = G.length + 1 := by simp
    rw [hN, hL, hflat]
    exact score_mono hTN hstep (Nat.le_succ _)

/-- Witness for C6 (amended): appending `[1,2]` to `[[1,2],[1,2],[1,3]]`
(both numbers are among the group's top-10) does not decrease the score. -/
theorem C6_consistency_monotone_witness :
    (∀ x ∈ ([1, 2] : List ℕ), x ∈ top_numbers [[1, 2], [1, 2], [1, 3]]) ∧
    calculate_v5_consistency [[1, 2], [1, 2], [1, 3]]
        (counterOf ([[1, 2], [1, 2], [1, 3]] : List (List ℕ)).flatten) ≤
      calculate_v5_consistency ([[1, 2], [1, 2], [1, 3]] ++ [[1, 2]])
        (counterOf (([[1, 2], [1, 2], [1, 3]] : List (List ℕ)) ++ [[1, 2]]).flatten) :=
  ⟨by decide, C6_consistency_monotone [[1, 2], [1, 2], [1, 3]] [1, 2] (by decide)⟩

end Keno
